import Mathlib

/-!
Verification of `vJumpToDFU` (src/stm32xx_dfu.c) and its helper macro
`WR_ALL_REGS`, against a shallow embedding as a small-step machine.

The embedding follows the C source statement by statement:

  void vJumpToDFU(const uint32_t *pulMSP_PC) {
    __disable_irq();                          -- step at PC.disableIrq
    SysTick->CTRL = 0x00000000UL;             -- step at PC.sysTickWrite
    WR_ALL_REGS(NVIC->ICER, 0xffffffffUL);    -- steps at PC.icerLoop addr
    WR_ALL_REGS(NVIC->ICPR, 0xffffffffUL);    -- steps at PC.icprLoop addr
    __enable_irq();                           -- step at PC.enableIrq
    __set_MSP(pulMSP_PC[0]);                  -- step at PC.setMsp
    ((void (*)(void))(pulMSP_PC[1]))();       -- step at PC.jumpEntry
    while (1) ;                               -- step at PC.loopForever
  }

Machine words are `Nat` values below 2^32; every written constant in the
source is already a 32-bit constant, so no overflow arithmetic occurs.
Each step appends the observable events it performs (register writes,
interrupt-mask changes, descriptor-memory reads, the final control
transfer) to a trace, in program order.
-/

/-- Observable events of the operation, in the order the C abstract machine
performs them: interrupt-mask changes, the SysTick control-register write,
the per-register NVIC ICER/ICPR writes (index and written value), reads of
the caller's descriptor words (by index), the main-stack-pointer write and
the final control transfer. -/
inductive Event where
  | irqDisable : Event
  | sysTickW : Nat → Event
  | icerW : Nat → Nat → Event
  | icprW : Nat → Nat → Event
  | irqEnable : Event
  | readDesc : Nat → Event
  | mspSet : Nat → Event
  | jump : Nat → Event
deriving DecidableEq, Repr

/-- Predicate selecting events that mutate processor or peripheral state (the side
effects); `false` for the pure reads of the descriptor memory. -/
def Event.isSideEffect : Event → Bool
  | .readDesc _ => false
  | _ => true

/-- Predicate selecting exactly the descriptor-memory read events. -/
def Event.isReadDesc : Event → Bool
  | .readDesc _ => true
  | _ => false

/-- Predicate selecting exactly the main-stack-pointer write event. -/
def Event.isMspSet : Event → Bool
  | .mspSet _ => true
  | _ => false

/-- Modelled from the spec: the NVIC ICER/ICPR registers declared by the
vendor HAL header (`stm32f4xx_hal.h`, not part of this repository's
sources) are write-one-to-clear: storing `data` clears exactly the bits
set in `data`, so after storing 0xFFFFFFFF the register reads back zero
("0xFFFFFFFF pattern meaning disabled", blocks subsequently "read
0x00000000"). -/
def w1cWrite (reg data : Nat) : Nat :=
  Nat.land reg (Nat.xor data 0xffffffff)

/-- A single store into register block `regs` at index `addr`: the block
after executing `regs[addr] = data` under the per-register store semantics
`store`. All other registers keep their contents. -/
def updReg (store : Nat → Nat → Nat) (data : Nat) (regs : Nat → Nat)
    (addr : Nat) : Nat → Nat :=
  fun i => if i = addr then store (regs i) data else regs i

/-- The processor/peripheral state `vJumpToDFU` touches: the PRIMASK
global interrupt mask (`true` = masked, set by `__disable_irq`), the
SysTick `CTRL` register, the NVIC `ICER` and `ICPR` register blocks
(modelled as functions from register index to 32-bit contents, with the
block sizes `nICER`/`nICPR` standing for `sizeof(regs)/sizeof(regs[0])`),
the main stack pointer `MSP`, and the caller's descriptor memory `desc`
(word-indexed; `pulMSP_PC[i]` is `desc i`). -/
structure Machine where
  primask : Bool
  CTRL : Nat
  nICER : Nat
  ICER : Nat → Nat
  nICPR : Nat
  ICPR : Nat → Nat
  MSP : Nat
  desc : Nat → Nat

attribute [ext] Machine

/-- Program points of `vJumpToDFU`, one per C statement; the two
`WR_ALL_REGS` loops carry their loop counter `addr`. `loopForever` is the
trailing `while (1) ;`, entered when the call to the entry point returns. -/
inductive PC where
  | disableIrq : PC
  | sysTickWrite : PC
  | icerLoop : Nat → PC
  | icprLoop : Nat → PC
  | enableIrq : PC
  | setMsp : PC
  | jumpEntry : PC
  | loopForever : PC
deriving DecidableEq, Repr

/-- A configuration: current program point, machine state, and the trace of
events performed so far (chronological order). -/
structure Conf where
  pc : PC
  mach : Machine
  trace : List Event

attribute [ext] Conf

/-- One small step of `vJumpToDFU`. Each branch is one C statement of
src/stm32xx_dfu.c lines 48-106; the `icerLoop`/`icprLoop` branches are one
iteration (or the exit test) of the expanded `WR_ALL_REGS` macro. In
`setMsp` the argument `pulMSP_PC[0]` is read and then the stack pointer is
written; in `jumpEntry` the target `pulMSP_PC[1]` is read and control
transfers, so the descriptor read at index 1 happens after the MSP write,
exactly as in the source. A returning entry point lands in `loopForever`,
which steps to itself. -/
def step (c : Conf) : Conf :=
  match c.pc with
  | .disableIrq =>
      ⟨.sysTickWrite, { c.mach with primask := true }, c.trace ++ [.irqDisable]⟩
  | .sysTickWrite =>
      ⟨.icerLoop 0, { c.mach with CTRL := 0 }, c.trace ++ [.sysTickW 0]⟩
  | .icerLoop addr =>
      if addr < c.mach.nICER then
        ⟨.icerLoop (addr + 1),
         { c.mach with ICER := updReg w1cWrite 0xffffffff c.mach.ICER addr },
         c.trace ++ [.icerW addr 0xffffffff]⟩
      else
        ⟨.icprLoop 0, c.mach, c.trace⟩
  | .icprLoop addr =>
      if addr < c.mach.nICPR then
        ⟨.icprLoop (addr + 1),
         { c.mach with ICPR := updReg w1cWrite 0xffffffff c.mach.ICPR addr },
         c.trace ++ [.icprW addr 0xffffffff]⟩
      else
        ⟨.enableIrq, c.mach, c.trace⟩
  | .enableIrq =>
      ⟨.setMsp, { c.mach with primask := false }, c.trace ++ [.irqEnable]⟩
  | .setMsp =>
      ⟨.jumpEntry, { c.mach with MSP := c.mach.desc 0 },
       c.trace ++ [.readDesc 0, .mspSet (c.mach.desc 0)]⟩
  | .jumpEntry =>
      ⟨.loopForever, c.mach, c.trace ++ [.readDesc 1, .jump (c.mach.desc 1)]⟩
  | .loopForever => c

/-- Initial configuration: about to execute the first statement, empty
trace. -/
def initConf (m : Machine) : Conf :=
  ⟨.disableIrq, m, []⟩

/-- Number of small steps from function entry until control has returned
from the entry-point call (the adversarial case) and sits in the trailing
infinite loop: one per straight-line statement plus one per loop
iteration plus the two loop-exit tests. -/
def runSteps (m : Machine) : Nat :=
  m.nICER + m.nICPR + 7

/-- The complete run of `vJumpToDFU` on machine `m` (descriptor included in
`m.desc`): the configuration after executing every statement, with the
adversarial assumption that the entry-point call returned. -/
def vJumpToDFU (m : Machine) : Conf :=
  Nat.iterate step (runSteps m) (initConf m)

/-- The machine state after the run: interrupts re-enabled, SysTick CTRL
zero, both NVIC blocks cleared register by register (write-one-to-clear of
0xFFFFFFFF yields 0), MSP loaded from descriptor word 0, descriptor memory
untouched. -/
def finalMach (m : Machine) : Machine :=
  { m with
      primask := false
      CTRL := 0
      ICER := fun i => if i < m.nICER then 0 else m.ICER i
      ICPR := fun i => if i < m.nICPR then 0 else m.ICPR i
      MSP := m.desc 0 }

/-- The full event trace of one run, in program order. -/
def fullTrace (m : Machine) : List Event :=
  [.irqDisable, .sysTickW 0]
    ++ (List.range m.nICER).map (fun a => .icerW a 0xffffffff)
    ++ (List.range m.nICPR).map (fun a => .icprW a 0xffffffff)
    ++ [.irqEnable, .readDesc 0, .mspSet (m.desc 0), .readDesc 1, .jump (m.desc 1)]

/-- Whether a trace contains a descriptor-memory read strictly after the
(first) main-stack-pointer write. -/
def descReadAfterMspSet (tr : List Event) : Bool :=
  ((tr.dropWhile (fun e => ! e.isMspSet)).drop 1).any Event.isReadDesc

/-!
The `WR_ALL_REGS` macro (src/stm32xx_dfu.c lines 34-38) as a standalone
operation:

  for (size_t addr = 0; addr < sizeof(regs)/sizeof(regs[0]); addr++)
    regs[addr] = data;

`wrAll store data count regs addr` performs the remaining `count`
iterations starting at index `addr`; it returns the final block together
with the list of stores performed, as `(index, value)` pairs in program
order. The per-register store semantics `store` is a parameter (for the
NVIC clear registers it is `w1cWrite`).
-/

/-- The `WR_ALL_REGS` loop body, iterated: write `data` into registers
`addr`, `addr+1`, ..., `addr+count-1`, in that order, recording each
store. -/
def wrAll (store : Nat → Nat → Nat) (data : Nat) :
    Nat → (Nat → Nat) → Nat → ((Nat → Nat) × List (Nat × Nat))
  | 0, regs, _ => (regs, [])
  | count + 1, regs, addr =>
      ((wrAll store data count (updReg store data regs addr) (addr + 1)).1,
       (addr, data) :: (wrAll store data count (updReg store data regs addr) (addr + 1)).2)

/-- The macro call `WR_ALL_REGS(regs, data)` on an `n`-register NVIC clear block: the C
macro's loop from index 0 to `n - 1`, with the write-one-to-clear register
semantics. Returns the final block and the stores performed. -/
def WR_ALL_REGS (regs : Nat → Nat) (n : Nat) (data : Nat) :
    ((Nat → Nat) × List (Nat × Nat)) :=
  wrAll w1cWrite data n regs 0

/-- The enable/pending clear step of `vJumpToDFU`:
`WR_ALL_REGS(block, 0xffffffffUL)`, viewed as a state transformer on the
`n`-register block. -/
def clearStep (n : Nat) (regs : Nat → Nat) : Nat → Nat :=
  (WR_ALL_REGS regs n 0xffffffff).1

/-- Writing `data` into the registers listed in `l`, one store per list
element, in list order: the generic "write the value to the N elements in
any order" operation used to compare write orders. -/
def writeSeq (store : Nat → Nat → Nat) (data : Nat) :
    List Nat → (Nat → Nat) → (Nat → Nat)
  | [], regs => regs
  | a :: rest, regs => writeSeq store data rest (updReg store data regs a)

/-- The spec's example scenario: an 8-register NVIC (the STM32F4 shape)
with every enable and pending register initially reading 0xFFFFFFFF (all
enabled / all pending), SysTick running, and the descriptor
`[0x20020000, 0x08000000]`. -/
def m6 : Machine :=
  { primask := false
    CTRL := 7
    nICER := 8
    ICER := fun _ => 0xffffffff
    nICPR := 8
    ICPR := fun _ => 0xffffffff
    MSP := 0
    desc := fun i => if i = 0 then 0x20020000 else if i = 1 then 0x08000000 else 0 }

/-! ### Helper lemmas -/

/-- Storing 0xFFFFFFFF into a write-one-to-clear register clears it. -/
theorem w1cWrite_ff (r : Nat) : w1cWrite r 0xffffffff = 0 := by
  show Nat.land r (Nat.xor 0xffffffff 0xffffffff) = 0
  have h : Nat.xor 0xffffffff 0xffffffff = 0 := by decide
  rw [h]
  exact Nat.and_zero r

/-- Running the `icerLoop` to completion: from index `addr` with `count`
registers left, after `count + 1` steps (the iterations plus the exit
test) control is at the ICPR loop, registers `addr ≤ i < nICER` are
cleared, and the per-register writes are appended in index order. -/
theorem icer_segment :
    ∀ (count addr : Nat) (m : Machine) (tr : List Event),
      addr + count = m.nICER →
      step^[count + 1] ⟨.icerLoop addr, m, tr⟩ =
        ⟨.icprLoop 0,
         { m with ICER := fun i => if addr ≤ i ∧ i < m.nICER then 0 else m.ICER i },
         tr ++ (List.range' addr count).map (fun a => .icerW a 0xffffffff)⟩ := by
  intro count
  induction count with
  | zero =>
      intro addr m tr h
      have hlt : ¬ addr < m.nICER := by omega
      have hICER : (fun i => if addr ≤ i ∧ i < m.nICER then 0 else m.ICER i) = m.ICER := by
        funext i
        by_cases hi : addr ≤ i ∧ i < m.nICER
        · exact absurd hi (by omega)
        · rw [if_neg hi]
      show step ⟨.icerLoop addr, m, tr⟩ = _
      simp only [step, if_neg hlt, hICER]
      simp
  | succ count ih =>
      intro addr m tr h
      have hlt : addr < m.nICER := by omega
      rw [Function.iterate_succ_apply]
      have hstep : step ⟨.icerLoop addr, m, tr⟩ =
          ⟨.icerLoop (addr + 1),
           { m with ICER := updReg w1cWrite 0xffffffff m.ICER addr },
           tr ++ [.icerW addr 0xffffffff]⟩ := by
        simp only [step, if_pos hlt]
      have h' : (addr + 1) + count =
          ({ m with ICER := updReg w1cWrite 0xffffffff m.ICER addr } : Machine).nICER := by
        show (addr + 1) + count = m.nICER
        omega
      rw [hstep, ih (addr + 1) _ _ h']
      dsimp only
      have hICER2 :
          (fun i => if addr + 1 ≤ i ∧ i < m.nICER then 0
                    else updReg w1cWrite 0xffffffff m.ICER addr i)
            = fun i => if addr ≤ i ∧ i < m.nICER then 0 else m.ICER i := by
        funext i
        by_cases hia : i = addr
        · subst hia
          rw [if_neg (by omega), if_pos (by omega)]
          simp [updReg, w1cWrite_ff]
        · simp only [updReg, if_neg hia]
          by_cases h1 : addr + 1 ≤ i ∧ i < m.nICER
          · rw [if_pos h1, if_pos (by omega)]
          · rw [if_neg h1, if_neg (by omega)]
      rw [hICER2, List.range'_succ]
      simp [List.append_assoc]

/-- Running the `icprLoop` to completion, symmetrically. -/
theorem icpr_segment :
    ∀ (count addr : Nat) (m : Machine) (tr : List Event),
      addr + count = m.nICPR →
      step^[count + 1] ⟨.icprLoop addr, m, tr⟩ =
        ⟨.enableIrq,
         { m with ICPR := fun i => if addr ≤ i ∧ i < m.nICPR then 0 else m.ICPR i },
         tr ++ (List.range' addr count).map (fun a => .icprW a 0xffffffff)⟩ := by
  intro count
  induction count with
  | zero =>
      intro addr m tr h
      have hlt : ¬ addr < m.nICPR := by omega
      have hICPR : (fun i => if addr ≤ i ∧ i < m.nICPR then 0 else m.ICPR i) = m.ICPR := by
        funext i
        by_cases hi : addr ≤ i ∧ i < m.nICPR
        · exact absurd hi (by omega)
        · rw [if_neg hi]
      show step ⟨.icprLoop addr, m, tr⟩ = _
      simp only [step, if_neg hlt, hICPR]
      simp
  | succ count ih =>
      intro addr m tr h
      have hlt : addr < m.nICPR := by omega
      rw [Function.iterate_succ_apply]
      have hstep : step ⟨.icprLoop addr, m, tr⟩ =
          ⟨.icprLoop (addr + 1),
           { m with ICPR := updReg w1cWrite 0xffffffff m.ICPR addr },
           tr ++ [.icprW addr 0xffffffff]⟩ := by
        simp only [step, if_pos hlt]
      have h' : (addr + 1) + count =
          ({ m with ICPR := updReg w1cWrite 0xffffffff m.ICPR addr } : Machine).nICPR := by
        show (addr + 1) + count = m.nICPR
        omega
      rw [hstep, ih (addr + 1) _ _ h']
      dsimp only
      have hICPR2 :
          (fun i => if addr + 1 ≤ i ∧ i < m.nICPR then 0
                    else updReg w1cWrite 0xffffffff m.ICPR addr i)
            = fun i => if addr ≤ i ∧ i < m.nICPR then 0 else m.ICPR i := by
        funext i
        by_cases hia : i = addr
        · subst hia
          rw [if_neg (by omega), if_pos (by omega)]
          simp [updReg, w1cWrite_ff]
        · simp only [updReg, if_neg hia]
          by_cases h1 : addr + 1 ≤ i ∧ i < m.nICPR
          · rw [if_pos h1, if_pos (by omega)]
          · rw [if_neg h1, if_neg (by omega)]
      rw [hICPR2, List.range'_succ]
      simp [List.append_assoc]

/-- The run up to (and including) the `__set_MSP` statement: after
`nICER + nICPR + 6` steps control is about to execute the jump, the
machine already has its final state, and the trace is everything up to the
MSP write. -/
theorem run_to_jump (m : Machine) :
    step^[m.nICER + m.nICPR + 6] (initConf m) =
      ⟨.jumpEntry, finalMach m,
       ([.irqDisable, .sysTickW 0]
         ++ (List.range m.nICER).map (fun a => .icerW a 0xffffffff)
         ++ (List.range m.nICPR).map (fun a => .icprW a 0xffffffff))
         ++ [.irqEnable, .readDesc 0, .mspSet (m.desc 0)]⟩ := by
  rw [show m.nICER + m.nICPR + 6 = 2 + ((m.nICPR + 1) + ((m.nICER + 1) + 2)) from by omega,
      Function.iterate_add_apply step 2 ((m.nICPR + 1) + ((m.nICER + 1) + 2)),
      Function.iterate_add_apply step (m.nICPR + 1) ((m.nICER + 1) + 2),
      Function.iterate_add_apply step (m.nICER + 1) 2]
  have h2 : step^[2] (initConf m) =
      ⟨.icerLoop 0, { m with primask := true, CTRL := 0 },
       [.irqDisable, .sysTickW 0]⟩ := rfl
  rw [h2]
  have hICERn : (0 : Nat) + m.nICER =
      ({ m with primask := true, CTRL := 0 } : Machine).nICER := by
    show 0 + m.nICER = m.nICER
    omega
  rw [icer_segment m.nICER 0 _ _ hICERn]
  dsimp only
  have hICPRn : (0 : Nat) + m.nICPR =
      ({ m with
           primask := true
           CTRL := 0
           ICER := fun i => if 0 ≤ i ∧ i < m.nICER then 0 else m.ICER i } : Machine).nICPR := by
    show 0 + m.nICPR = m.nICPR
    omega
  rw [icpr_segment m.nICPR 0 _ _ hICPRn]
  dsimp only
  have h2' : ∀ (mach : Machine) (tr : List Event),
      step^[2] (⟨.enableIrq, mach, tr⟩ : Conf) =
        ⟨.jumpEntry, { mach with primask := false, MSP := mach.desc 0 },
         (tr ++ [.irqEnable]) ++ [.readDesc 0, .mspSet (mach.desc 0)]⟩ :=
    fun mach tr => rfl
  rw [h2']
  have hIC : (fun i => if 0 ≤ i ∧ i < m.nICER then 0 else m.ICER i)
      = fun i => if i < m.nICER then 0 else m.ICER i := by
    funext i
    by_cases hi : i < m.nICER
    · rw [if_pos ⟨Nat.zero_le i, hi⟩, if_pos hi]
    · rw [if_neg (by omega), if_neg hi]
  have hIP : (fun i => if 0 ≤ i ∧ i < m.nICPR then 0 else m.ICPR i)
      = fun i => if i < m.nICPR then 0 else m.ICPR i := by
    funext i
    by_cases hi : i < m.nICPR
    · rw [if_pos ⟨Nat.zero_le i, hi⟩, if_pos hi]
    · rw [if_neg (by omega), if_neg hi]
  rw [hIC, hIP]
  simp [finalMach, List.append_assoc, List.range_eq_range']

/-- The complete run: the final configuration of `vJumpToDFU`. -/
theorem run_eq (m : Machine) :
    vJumpToDFU m = ⟨.loopForever, finalMach m, fullTrace m⟩ := by
  rw [vJumpToDFU, runSteps,
      show m.nICER + m.nICPR + 7 = (m.nICER + m.nICPR + 6) + 1 from by omega,
      Function.iterate_succ_apply', run_to_jump]
  show (⟨.loopForever, finalMach m, _⟩ : Conf) = _
  rw [fullTrace]
  simp [finalMach, List.append_assoc, List.range_eq_range']

/-- A configuration sitting in the trailing `while (1) ;` is a fixed point
of `step`. -/
theorem step_loopForever (c : Conf) (h : c.pc = PC.loopForever) : step c = c := by
  obtain ⟨pc, mach, tr⟩ := c
  subst h
  rfl

/-- Once in the trailing loop, any number of further steps leaves the
configuration unchanged. -/
theorem iterate_loopForever (c : Conf) (h : c.pc = PC.loopForever) :
    ∀ n, step^[n] c = c := by
  intro n
  induction n with
  | zero => rfl
  | succ n ih => rw [Function.iterate_succ_apply, step_loopForever c h, ih]

/-- Pointwise value of the block after the `WR_ALL_REGS` loop: registers in
`[addr, addr + count)` hold the stored value, all others are untouched. -/
theorem wrAll_apply (store : Nat → Nat → Nat) (data : Nat) :
    ∀ (count : Nat) (regs : Nat → Nat) (addr j : Nat),
      (wrAll store data count regs addr).1 j =
        if addr ≤ j ∧ j < addr + count then store (regs j) data else regs j := by
  intro count
  induction count with
  | zero =>
      intro regs addr j
      rw [wrAll, if_neg (by omega)]
  | succ count ih =>
      intro regs addr j
      show (wrAll store data count (updReg store data regs addr) (addr + 1)).1 j = _
      rw [ih]
      by_cases hja : j = addr
      · subst hja
        rw [if_neg (by omega), if_pos (by omega)]
        simp [updReg]
      · rw [show updReg store data regs addr j = regs j from by simp [updReg, hja]]
        by_cases h1 : addr + 1 ≤ j ∧ j < addr + 1 + count
        · rw [if_pos h1, if_pos (by omega)]
        · rw [if_neg h1, if_neg (by omega)]

/-- The stores performed by the `WR_ALL_REGS` loop: one per index of the
block, in increasing index order, each storing `data`. -/
theorem wrAll_events (store : Nat → Nat → Nat) (data : Nat) :
    ∀ (count : Nat) (regs : Nat → Nat) (addr : Nat),
      (wrAll store data count regs addr).2 =
        (List.range' addr count).map (fun a => (a, data)) := by
  intro count
  induction count with
  | zero => intro regs addr; rfl
  | succ count ih =>
      intro regs addr
      show (addr, data) :: (wrAll store data count (updReg store data regs addr) (addr + 1)).2 = _
      rw [ih, List.range'_succ]
      rfl

/-- The number of occurrences of `j` in `List.range n`. -/
theorem count_range (n j : Nat) :
    (List.range n).count j = if j < n then 1 else 0 := by
  induction n with
  | zero => simp
  | succ n ih =>
      rw [List.range_succ, List.count_append, ih]
      by_cases h : j = n
      · subst h
        rw [if_neg (by omega), if_pos (by omega)]
        simp
      · have h1 : List.count j [n] = 0 := by
          simp [List.count_singleton']
          omega
        rw [h1]
        by_cases h2 : j < n
        · rw [if_pos h2, if_pos (by omega)]
        · rw [if_neg h2, if_neg (by omega)]

/-- Pointwise value of the block after writing `data` to the indices of a
duplicate-free list `l`, in list order. -/
theorem writeSeq_apply (store : Nat → Nat → Nat) (data : Nat) :
    ∀ (l : List Nat) (regs : Nat → Nat) (j : Nat), l.Nodup →
      writeSeq store data l regs j =
        if j ∈ l then store (regs j) data else regs j := by
  intro l
  induction l with
  | nil =>
      intro regs j _
      rw [writeSeq, if_neg (by simp)]
  | cons a rest ih =>
      intro regs j hnd
      have hnd' : rest.Nodup := (List.nodup_cons.mp hnd).2
      have hna : a ∉ rest := (List.nodup_cons.mp hnd).1
      show writeSeq store data rest (updReg store data regs a) j = _
      rw [ih _ _ hnd']
      by_cases hj : j ∈ rest
      · have hja : j ≠ a := fun h => hna (h ▸ hj)
        rw [if_pos hj, if_pos (by simp [hj]),
            show updReg store data regs a j = regs j from by simp [updReg, hja]]
      · rw [if_neg hj]
        by_cases hja : j = a
        · subst hja
          rw [if_pos (by simp), show updReg store data regs j j = store (regs j) data from by
                simp [updReg]]
        · rw [if_neg (by simp [hja, hj]),
              show updReg store data regs a j = regs j from by simp [updReg, hja]]

/-- Filtering keeps a mapped segment whole when the predicate holds on
every mapped element. -/
theorem filter_map_const_true (p : Event → Bool) (f : Nat → Event)
    (l : List Nat) (h : ∀ a, p (f a) = true) :
    (l.map f).filter p = l.map f := by
  rw [List.filter_eq_self]
  intro e he
  obtain ⟨a, _, rfl⟩ := List.mem_map.mp he
  exact h a

/-- Filtering drops a mapped segment whole when the predicate fails on
every mapped element. -/
theorem filter_map_const_false (p : Event → Bool) (f : Nat → Event)
    (l : List Nat) (h : ∀ a, p (f a) = false) :
    (l.map f).filter p = [] := by
  induction l with
  | nil => rfl
  | cons a rest ih =>
      show List.filter p (f a :: rest.map f) = []
      rw [List.filter_cons_of_neg (by simp [h a]), ih]

/-! ### Claim theorems -/

/-- C1: the claim says both descriptor words are read before the
main-stack-pointer write and that no descriptor read occurs after the
stack-pointer register is set. The code refutes it: on the example
machine, after the `mspSet` event the trace still contains the read of
descriptor word 1 (the entry address is fetched by
`((void (*)(void))(pulMSP_PC[1]))()` only after `__set_MSP(pulMSP_PC[0])`
has executed), so a descriptor read does occur after the stack-pointer
write. -/
theorem C1_desc_read_after_msp_write :
    descReadAfterMspSet (vJumpToDFU m6).trace = true ∧
    ((vJumpToDFU m6).trace.dropWhile (fun e => ! e.isMspSet)).drop 1
      = [.readDesc 1, .jump 0x08000000] := by
  decide

/-- C2: for every machine (any descriptor, any block sizes), the sequence
of side effects of `vJumpToDFU` is exactly: global interrupt disable,
SysTick control register written to 0, every NVIC enable-clear register
written with 0xFFFFFFFF in index order, every pending-clear register
written with 0xFFFFFFFF in index order, global interrupt enable, main
stack pointer set to descriptor word 0, control transfer to descriptor
word 1. -/
theorem C2_effect_sequence (m : Machine) :
    (vJumpToDFU m).trace.filter Event.isSideEffect =
      [.irqDisable, .sysTickW 0]
        ++ (List.range m.nICER).map (fun a => .icerW a 0xffffffff)
        ++ (List.range m.nICPR).map (fun a => .icprW a 0xffffffff)
        ++ [.irqEnable, .mspSet (m.desc 0), .jump (m.desc 1)] := by
  rw [run_eq]
  show (fullTrace m).filter Event.isSideEffect = _
  rw [fullTrace]
  simp only [List.filter_append]
  rw [filter_map_const_true Event.isSideEffect (fun a => .icerW a 0xffffffff) _ (fun a => rfl),
      filter_map_const_true Event.isSideEffect (fun a => .icprW a 0xffffffff) _ (fun a => rfl)]
  simp [Event.isSideEffect, List.append_assoc]

/-- C3: `vJumpToDFU` never returns to its caller: the run ends in the
trailing `while (1) ;`, and from there any number of further steps leaves
the configuration — program point, machine state and trace — unchanged,
so no instruction other than the loop executes afterwards. -/
theorem C3_never_returns (m : Machine) :
    (vJumpToDFU m).pc = PC.loopForever ∧
    ∀ n, step^[n] (vJumpToDFU m) = vJumpToDFU m := by
  have hpc : (vJumpToDFU m).pc = PC.loopForever := by rw [run_eq]
  exact ⟨hpc, iterate_loopForever _ hpc⟩

/-- C4: for every block size `n` (hence in particular 1, 8, 32) and every
value, `WR_ALL_REGS` stores into each of the `n` registers exactly once
(index `j` receives exactly one store when `j < n` and none otherwise),
and every store carries the given value: the store list is exactly one
`(index, data)` pair per block index. -/
theorem C4_writes_each_register_once (regs : Nat → Nat) (n data j : Nat) :
    ((WR_ALL_REGS regs n data).2.map Prod.fst).count j
        = (if j < n then 1 else 0) ∧
    (WR_ALL_REGS regs n data).2 = (List.range n).map (fun a => (a, data)) := by
  constructor
  · rw [WR_ALL_REGS, wrAll_events]
    rw [show ((List.range' 0 n).map (fun a => ((a, data) : Nat × Nat))).map Prod.fst
          = List.range' 0 n from by simp [Function.comp_def]]
    rw [← List.range_eq_range', count_range]
  · rw [WR_ALL_REGS, wrAll_events, List.range_eq_range']

/-- C5: at the moment control transfers to the entry point (the
configuration about to execute the jump), the global interrupt mask is
unmasked again while the SysTick control register still holds the 0
written earlier. -/
theorem C5_at_jump_irq_enabled_systick_off (m : Machine) :
    (step^[m.nICER + m.nICPR + 6] (initConf m)).pc = PC.jumpEntry ∧
    (step^[m.nICER + m.nICPR + 6] (initConf m)).mach.primask = false ∧
    (step^[m.nICER + m.nICPR + 6] (initConf m)).mach.CTRL = 0 := by
  rw [run_to_jump]
  exact ⟨rfl, rfl, rfl⟩

/-- C6: the spec's example scenario. With descriptor
`[0x20020000, 0x08000000]` and 8-register enable/pending blocks all
reading 0xFFFFFFFF, after the first four steps (interrupt disable,
SysTick write, both block clears — 20 small steps, control then at the
re-enable statement) every register of both blocks reads 0; at the end of
the run the stack-pointer register holds 0x20020000 and the recorded jump
target is 0x08000000. -/
theorem C6_example_scenario :
    (∀ i, i < 8 → (step^[20] (initConf m6)).mach.ICER i = 0
        ∧ (step^[20] (initConf m6)).mach.ICPR i = 0) ∧
    (step^[20] (initConf m6)).pc = PC.enableIrq ∧
    (vJumpToDFU m6).mach.MSP = 0x20020000 ∧
    (vJumpToDFU m6).trace.getLast? = some (.jump 0x08000000) := by
  decide

/-- C7: the enable/pending clear step (`WR_ALL_REGS` of the clear value
0xFFFFFFFF) is idempotent on an already-cleared block: applied twice in a
row it leaves the block exactly as applying it once does — still the
cleared all-zero block — because the store overwrites the enable/pending
state rather than toggling it. -/
theorem C7_clear_idempotent (n : Nat) (regs : Nat → Nat)
    (h : ∀ i, i < n → regs i = 0) :
    clearStep n (clearStep n regs) = regs ∧ clearStep n regs = regs := by
  have hstate : clearStep n regs = regs := by
    funext j
    rw [clearStep, WR_ALL_REGS, wrAll_apply]
    by_cases hj : 0 ≤ j ∧ j < 0 + n
    · rw [if_pos hj, w1cWrite_ff, h j (by omega)]
    · rw [if_neg hj]
  rw [hstate, hstate]
  exact ⟨rfl, rfl⟩

/-- Witness for C7 at a concrete cleared 2-register block. -/
theorem C7_witness :
    (∀ i, i < 2 → (fun _ : Nat => 0) i = 0) ∧
    (clearStep 2 (clearStep 2 (fun _ : Nat => 0)) = (fun _ : Nat => 0) ∧
      clearStep 2 (fun _ : Nat => 0) = (fun _ : Nat => 0)) :=
  ⟨fun _ _ => rfl, C7_clear_idempotent 2 (fun _ => 0) (fun _ _ => rfl)⟩

/-- C8: the block write is order-independent: storing the value at the
block's indices in any permutation of the index order produces the same
final block as the implementation's ascending-index loop, for any
per-register store semantics, any block and any value. -/
theorem C8_order_independent (store : Nat → Nat → Nat) (data : Nat)
    (regs : Nat → Nat) (n : Nat) (l : List Nat)
    (h : l.Perm (List.range n)) :
    writeSeq store data l regs = (wrAll store data n regs 0).1 := by
  funext j
  have hnd : l.Nodup := (h.nodup_iff).mpr (List.nodup_range n)
  rw [writeSeq_apply store data l regs j hnd, wrAll_apply]
  have hmem : j ∈ l ↔ j < n := by rw [h.mem_iff, List.mem_range]
  by_cases hj : j < n
  · rw [if_pos (hmem.mpr hj), if_pos (by omega)]
  · rw [if_neg (fun hc => hj (hmem.mp hc)), if_neg (by omega)]

/-- Witness for C8 with the permutation `[2, 0, 1]` of a 3-register
block. -/
theorem C8_witness :
    ([2, 0, 1] : List Nat).Perm (List.range 3) ∧
    writeSeq w1cWrite 5 [2, 0, 1] (fun i => i) = (wrAll w1cWrite 5 3 (fun i => i) 0).1 :=
  ⟨by decide, C8_order_independent w1cWrite 5 (fun i => i) 3 [2, 0, 1] (by decide)⟩

/-- C9: the complete footprint of `vJumpToDFU`: it sets the interrupt
mask (finally unmasked), clears the SysTick control register, clears
exactly the registers of the NVIC enable-clear and pending-clear blocks
(registers beyond the block bounds keep their contents), loads the MSP
from descriptor word 0 — and leaves everything else unchanged, in
particular every word of the caller-supplied descriptor memory and the
block sizes. -/
theorem C9_frame (m : Machine) :
    (vJumpToDFU m).mach.primask = false ∧
    (vJumpToDFU m).mach.CTRL = 0 ∧
    (∀ i, (vJumpToDFU m).mach.ICER i = if i < m.nICER then 0 else m.ICER i) ∧
    (∀ i, (vJumpToDFU m).mach.ICPR i = if i < m.nICPR then 0 else m.ICPR i) ∧
    (vJumpToDFU m).mach.MSP = m.desc 0 ∧
    (vJumpToDFU m).mach.nICER = m.nICER ∧
    (vJumpToDFU m).mach.nICPR = m.nICPR ∧
    ∀ i, (vJumpToDFU m).mach.desc i = m.desc i := by
  rw [run_eq]
  exact ⟨rfl, rfl, fun _ => rfl, fun _ => rfl, rfl, rfl, rfl, fun _ => rfl⟩

/-- C10: `vJumpToDFU` reads the caller's descriptor exactly at indices 0
and 1 (in that order, nothing else), and never writes the descriptor
memory: every word of it is unchanged by the run. -/
theorem C10_desc_access (m : Machine) :
    (vJumpToDFU m).trace.filter Event.isReadDesc = [.readDesc 0, .readDesc 1] ∧
    ∀ i, (vJumpToDFU m).mach.desc i = m.desc i := by
  constructor
  · rw [run_eq]
    show (fullTrace m).filter Event.isReadDesc = _
    rw [fullTrace]
    simp only [List.filter_append]
    rw [filter_map_const_false Event.isReadDesc (fun a => .icerW a 0xffffffff) _ (fun a => rfl),
        filter_map_const_false Event.isReadDesc (fun a => .icprW a 0xffffffff) _ (fun a => rfl)]
    simp [Event.isReadDesc]
  · rw [run_eq]
    exact fun _ => rfl

-- Scratch checks (removed in the final file) ----------------------------

example : (vJumpToDFU m6).trace = fullTrace m6 := by decide
example : descReadAfterMspSet (vJumpToDFU m6).trace = true := by decide
example : (vJumpToDFU m6).mach.MSP = 0x20020000 := by decide
example : (vJumpToDFU m6).mach.ICER 0 = 0 := by decide
example : (vJumpToDFU m6).pc = PC.loopForever := by decide
